import Mathlib

/-!
Verification of the FlavourCraft backend core: the ingredient-detection
result merger (backend/services/ingredient_service.py, merge_detection_results)
and the recipe synthesizer with its rule-based fallback
(backend/services/recipe_service.py, generate_ai_recipe and
fallback_rule_based_recipe).

Modelling conventions:
- Python floats are modelled as exact rationals.  All constants of the merger
  (0.6, 0.4, 1.2, 0.3, 1.0) are decimal literals, so every comparison the
  claims depend on is far from a binary rounding boundary.
- A Python dict entry that may lack a key is modelled with Option fields;
  accessing a missing key, which raises KeyError in Python, is modelled in
  the Except monad.  The single try/except around the whole merge body that
  returns the empty list is the match on the Except result.
- A Python dict used as an ordered map is modelled as a list of records in
  insertion order: assignment to an existing key replaces the value in place
  and keeps the key position, assignment to a fresh key appends.
-/

namespace FlavourCraft

/-- Model of Python str.lower() for the ASCII names the detectors produce:
lowercase every character, change nothing else (in particular no trimming
of whitespace). -/
def pyLower (s : String) : String := ⟨s.data.map Char.toLower⟩

/-- One raw detection dict as produced by a detector collaborator.
The merger reads the keys "name" and "confidence"; either may be missing
in a malformed entry, hence the Option fields. -/
structure RawDetection where
  name : Option String
  confidence : Option Rat
deriving Repr, DecidableEq

/-- Shorthand for a well-formed detection entry carrying both keys. -/
def det (nm : String) (c : Rat) : RawDetection := ⟨some nm, some c⟩

/-- One merged ingredient record, mirroring the dicts built by
merge_detection_results: name, fused confidence, contributing sources. -/
structure MergedIngredient where
  name : String
  confidence : Rat
  sources : List String
deriving Repr, DecidableEq

/-- The lowercased name the merger keys an entry by (line 93 and 102 of
ingredient_service.py use ingredient["name"].lower() with no strip). -/
def rawKey (e : RawDetection) : String := pyLower (e.name.getD "")

/-- Processing of local_results (lines 92-98): for each entry read its keys
(KeyError on a missing key aborts into the except branch), lowercase the
name, and assign a fresh record with confidence weighted by 0.6 into the
insertion-ordered dict.  Assignment to an existing key replaces in place. -/
def processLocal : List MergedIngredient → List RawDetection → Except Unit (List MergedIngredient)
  | d, [] => .ok d
  | d, e :: rest =>
    match e.name, e.confidence with
    | some nm, some c =>
      let key := pyLower nm
      let entry : MergedIngredient := ⟨key, c * 0.6, ["local_ml"]⟩
      let d' := if d.any (fun x => x.name == key)
                then d.map (fun x => if x.name == key then entry else x)
                else d ++ [entry]
      processLocal d' rest
    | _, _ => .error ()

/-- Processing of openai_results (lines 101-115): if the lowercased name is
already present, boost the confidence of that record to
min((existing + c * 0.4) * 1.2, 1.0) and append "openai_vision" to its
sources; otherwise append a fresh record weighted by 0.4. -/
def processRemote : List MergedIngredient → List RawDetection → Except Unit (List MergedIngredient)
  | d, [] => .ok d
  | d, e :: rest =>
    match e.name, e.confidence with
    | some nm, some c =>
      let key := pyLower nm
      let d' := if d.any (fun x => x.name == key)
                then d.map (fun x =>
                  if x.name == key
                  then { x with
                         confidence := min ((x.confidence + c * 0.4) * 1.2) 1.0,
                         sources := x.sources ++ ["openai_vision"] }
                  else x)
                else d ++ [⟨key, c * 0.4, ["openai_vision"]⟩]
      processRemote d' rest
    | _, _ => .error ()

/-- Both dict-building phases in order: local results seed the dict, remote
results update it. -/
def mergeDict (local_results openai_results : List RawDetection) :
    Except Unit (List MergedIngredient) := do
  let d ← processLocal [] local_results
  processRemote d openai_results

/-- Stable insertion of a record into a confidence-descending list: the
record goes in front of the first element whose confidence is not strictly
greater, so among equal confidences the inserted (earlier) record stays
first. -/
def insertDesc (m : MergedIngredient) : List MergedIngredient → List MergedIngredient
  | [] => [m]
  | x :: xs => if m.confidence < x.confidence then x :: insertDesc m xs else m :: x :: xs

/-- Stable sort by confidence descending, the model of the stable Python
list.sort(key=confidence, reverse=True) at line 128 (CPython keeps equal
elements in their original order also under reverse=True). -/
def sortByConfDesc : List MergedIngredient → List MergedIngredient
  | [] => []
  | x :: xs => insertDesc x (sortByConfDesc xs)

/-- Dict values in insertion order with the low-confidence records dropped
(lines 118-126: keep only confidence strictly greater than 0.3), before
sorting; empty on the except branch. -/
def mergeFiltered (local_results openai_results : List RawDetection) : List MergedIngredient :=
  match mergeDict local_results openai_results with
  | .ok d => d.filter (fun m => 0.3 < m.confidence)
  | .error _ => []

/-- merge_detection_results (ingredient_service.py lines 86-135): build the
ordered dict from both result lists, drop records with confidence at most
0.3, sort by confidence descending; any KeyError inside the body is caught
by the except branch which returns the empty list. -/
def merge_detection_results (local_results openai_results : List RawDetection) :
    List MergedIngredient :=
  match mergeDict local_results openai_results with
  | .ok d => sortByConfDesc (d.filter (fun m => 0.3 < m.confidence))
  | .error _ => []

/-! The upload route (backend/routes/upload.py, upload_images, lines 58-101)
extends a running list with the per-image merge results, deduplicates by
lowercased name keeping the higher confidence, sorts by confidence
descending (sorted(..., reverse=True) is stable) and returns the top 20. -/

/-- One step of the dict-based deduplication at lines 78-82: a fresh
lowercased name is appended; an existing one is replaced in place only when
the new confidence is strictly greater. -/
def uploadDedupStep (d : List (String × MergedIngredient)) (e : MergedIngredient) :
    List (String × MergedIngredient) :=
  let nm := pyLower e.name
  if d.any (fun x => x.1 == nm)
  then if d.any (fun x => x.1 == nm && x.2.confidence < e.confidence)
       then d.map (fun x => if x.1 == nm then (nm, e) else x)
       else d
  else d ++ [(nm, e)]

/-- Deduplicated ingredient list of the upload route, in first-seen order. -/
def uploadUnique (all_ingredients : List MergedIngredient) : List MergedIngredient :=
  (all_ingredients.foldl uploadDedupStep []).map (fun x => x.2)

/-- Ingredient list returned by upload_images: per-image merge results
concatenated, deduplicated, sorted by confidence descending, capped at the
top 20 entries (line 99). -/
def upload_images_ingredients (batches : List (List RawDetection × List RawDetection)) :
    List MergedIngredient :=
  let all_ingredients := batches.flatMap (fun b => merge_detection_results b.1 b.2)
  (sortByConfDesc (uploadUnique all_ingredients)).take 20

/-! Recipe synthesizer: backend/services/recipe_service.py together with the
pydantic models of backend/models/generated_recipe.py. -/

/-- GeneratedRecipeRequest (generated_recipe.py lines 6-10).  The pydantic
field constraint min_items=1 on ingredients is enforced at the API boundary,
not by the functions modelled here, so the list is unconstrained. -/
structure GeneratedRecipeRequest where
  ingredients : List String
  dietary_preferences : List String
  cuisine_type : Option String
  difficulty_preference : Option String
deriving Repr, DecidableEq

/-- GeneratedRecipe (generated_recipe.py lines 12-18): pydantic validates
field types only — nothing constrains title to be non-empty, steps to be
non-empty, the time to be positive or the difficulty to be one of the three
levels. -/
structure GeneratedRecipe where
  title : String
  steps : List String
  estimated_time : Int
  difficulty : String
  tips : Option String
  servings : Int
deriving Repr, DecidableEq

/-- The Recipe invariants of spec section 3: non-empty title, at least one
non-empty step, positive estimated time, positive servings, difficulty one
of easy, medium, hard. -/
def validRecipe (r : GeneratedRecipe) : Prop :=
  r.title ≠ "" ∧ r.steps ≠ [] ∧ (∀ s ∈ r.steps, s ≠ "") ∧
    0 < r.estimated_time ∧ 0 < r.servings ∧ r.difficulty ∈ ["easy", "medium", "hard"]

instance (r : GeneratedRecipe) : Decidable (validRecipe r) := by
  unfold validRecipe; infer_instance

/-- Model of Python str.title() for ASCII text: uppercase every alphabetic
character that follows a non-alphabetic one (or starts the string),
lowercase the other alphabetic characters. -/
def pyTitleAux : Bool → List Char → List Char
  | _, [] => []
  | prevAlpha, c :: cs =>
    (if c.isAlpha then (if prevAlpha then c.toLower else c.toUpper) else c)
      :: pyTitleAux c.isAlpha cs

/-- Python str.title() on a whole string. -/
def pyTitle (s : String) : String := ⟨pyTitleAux false s.data⟩

/-- Grain keywords of the fallback classification (recipe_service.py line 83). -/
def grainKeywords : List String := ["rice", "pasta", "noodles"]

/-- Protein keywords of the fallback classification (line 85). -/
def proteinKeywords : List String := ["chicken", "beef", "fish", "paneer", "tofu"]

/-- Bucket chosen by lines 83-88: membership of a whole keyword string in
the ingredient list (the Python test grain in ingredients on a list of strings is
exact string membership, not substring search), grains before proteins. -/
def classifyRecipeType (ingredients : List String) : String :=
  if grainKeywords.any (fun g => ingredients.contains g) then "grain_based"
  else if proteinKeywords.any (fun p => ingredients.contains p) then "protein_based"
  else "vegetable_stir_fry"

/-- The grain_based template (lines 91-105). -/
def grainTemplate (ingredients : List String) (first : String) : GeneratedRecipe where
  title := pyTitle first ++ " Bowl"
  steps := [
    "Prepare all ingredients: " ++ String.intercalate ", " ingredients,
    "Heat oil in a large pan or wok",
    "Add aromatics (onion, garlic, ginger) if available",
    "Add main ingredients and cook until tender",
    "Season with salt, pepper, and available spices",
    "Serve hot and enjoy!"]
  estimated_time := 25
  difficulty := "easy"
  tips := some "Feel free to adjust seasoning to taste"
  servings := 4

/-- The protein_based template (lines 106-120). -/
def proteinTemplate (first : String) : GeneratedRecipe where
  title := "Simple " ++ pyTitle first ++ " Dish"
  steps := [
    "Clean and prepare " ++ first,
    "Heat oil in a pan",
    "Cook protein until golden brown",
    "Add vegetables and seasonings",
    "Cook until everything is well combined",
    "Serve with rice or bread"]
  estimated_time := 30
  difficulty := "medium"
  tips := some "Don\x27t overcook the protein"
  servings := 4

/-- The vegetable_stir_fry template (lines 121-135). -/
def vegetableStirFryTemplate : GeneratedRecipe where
  title := "Mixed Vegetable Stir Fry"
  steps := [
    "Wash and chop all vegetables",
    "Heat oil in a wok or large pan",
    "Add harder vegetables first",
    "Stir fry on high heat",
    "Add softer vegetables",
    "Season and serve hot"]
  estimated_time := 15
  difficulty := "easy"
  tips := some "Keep vegetables crispy for better texture"
  servings := 4

/-- The hardcoded absolute last resort returned by the except branch of the
fallback (lines 140-154). -/
def simpleIngredientMix : GeneratedRecipe where
  title := "Simple Ingredient Mix"
  steps := [
    "Combine all available ingredients",
    "Cook with basic seasonings",
    "Adjust taste as needed"]
  estimated_time := 20
  difficulty := "easy"
  tips := some "This is a basic combination of your ingredients"
  servings := 4

/-- fallback_rule_based_recipe (lines 77-154).  The recipes dict at lines
90-136 is built eagerly, so ingredients[0] is evaluated before any template
is selected; with string ingredients that subscript is the only statement in
the try block that can raise, and it raises exactly when the ingredient list
is empty (IndexError), landing in the except branch that returns the
hardcoded last resort. -/
def fallback_rule_based_recipe (request : GeneratedRecipeRequest) : GeneratedRecipe :=
  match request.ingredients.head? with
  | none => simpleIngredientMix
  | some first =>
    match classifyRecipeType request.ingredients with
    | "grain_based" => grainTemplate request.ingredients first
    | "protein_based" => proteinTemplate first
    | _ => vegetableStirFryTemplate

/-- JSON values, the shape of the decoded reply of the generative collaborator.
Numbers are integers: the documented reply shape uses integer times and
servings, and nothing in the claims depends on fractional JSON numbers. -/
inductive Json where
  | null
  | bool (b : Bool)
  | num (n : Int)
  | str (s : String)
  | arr (elements : List Json)
  | obj (fields : List (String × Json))

/-- Lookup of a key in a decoded JSON object; json.loads keeps the last
binding of a repeated key. -/
def jsonLookup (fields : List (String × Json)) (key : String) : Option Json :=
  ((fields.filter (fun f => f.1 == key)).getLast?).map (fun f => f.2)

/-- String payload of a JSON value, if it is a string. -/
def Json.asStr : Json → Option String
  | .str s => some s
  | _ => none

/-- Integer payload of a JSON value, if it is a number. -/
def Json.asInt : Json → Option Int
  | .num n => some n
  | _ => none

/-- List-of-strings payload of a JSON value, if it is an array of strings. -/
def Json.asStrList : Json → Option (List String)
  | .arr xs => xs.mapM Json.asStr
  | _ => none

/-- Pydantic construction GeneratedRecipe(**recipe_data) at line 65 of
recipe_service.py: requires a JSON object whose title, steps, estimated_time
and difficulty fields have the declared types; tips is optional (absent or
null becomes none); servings defaults to 4 when absent; extra fields are
ignored; any violation raises ValidationError, modelled as none. -/
def GeneratedRecipe.ofJson : Json → Option GeneratedRecipe
  | .obj fields => do
    let title ← (jsonLookup fields "title").bind Json.asStr
    let steps ← (jsonLookup fields "steps").bind Json.asStrList
    let estimated_time ← (jsonLookup fields "estimated_time").bind Json.asInt
    let difficulty ← (jsonLookup fields "difficulty").bind Json.asStr
    let tips ← match jsonLookup fields "tips" with
      | none => some none
      | some .null => some none
      | some j => (Json.asStr j).map some
    let servings ← match jsonLookup fields "servings" with
      | none => some 4
      | some j => Json.asInt j
    some ⟨title, steps, estimated_time, difficulty, tips, servings⟩
  | _ => none

/-- generate_ai_recipe (recipe_service.py lines 13-75).  The external call
and JSON decoding are modelled by the response argument: none stands for any
exception up to and including json.loads (transport error, or
json.JSONDecodeError after the code-fence stripping of lines 57-60), some j
for a reply whose text decodes to the JSON value j.  A decoded reply that
fails pydantic validation falls back (the except at line 73); a reply that
validates is returned verbatim, with no further checks on its field
values. -/
def generate_ai_recipe (request : GeneratedRecipeRequest) (response : Option Json) :
    GeneratedRecipe :=
  match response with
  | none => fallback_rule_based_recipe request
  | some j =>
    match GeneratedRecipe.ofJson j with
    | some recipe => recipe
    | none => fallback_rule_based_recipe request

/-- Shorthand for a request carrying only an ingredient list. -/
def mkRequest (ingredients : List String) : GeneratedRecipeRequest :=
  ⟨ingredients, [], none, none⟩

/-- Names in the order first encountered, starting from an already-seen
accumulator: a Python dict keyed by name keeps exactly the first-seen
position of every key. -/
def seenFold (acc : List String) (names : List String) : List String :=
  names.foldl (fun a n => if n ∈ a then a else a ++ [n]) acc

/-- First-seen order of a name sequence. -/
def firstSeen (names : List String) : List String := seenFold [] names

/-- A syntactically well-formed generative reply whose field values violate
every invariant of spec section 3: empty title, no steps, zero time,
difficulty outside the three levels.  It type-checks against the pydantic
model, so generate_ai_recipe returns it verbatim. -/
def badReply : Json :=
  .obj [("title", .str ""), ("steps", .arr []),
    ("estimated_time", .num 0), ("difficulty", .str "impossible")]

/-! Helper lemmas about the stable descending sort. -/

theorem mem_insertDesc {a m : MergedIngredient} {l : List MergedIngredient} :
    a ∈ insertDesc m l ↔ a = m ∨ a ∈ l := by
  induction l with
  | nil => simp [insertDesc]
  | cons x xs ih =>
    by_cases h : m.confidence < x.confidence
    · simp [insertDesc, h, ih]; tauto
    · simp [insertDesc, h]

theorem mem_sortByConfDesc {a : MergedIngredient} {l : List MergedIngredient} :
    a ∈ sortByConfDesc l ↔ a ∈ l := by
  induction l with
  | nil => simp [sortByConfDesc]
  | cons x xs ih => simp [sortByConfDesc, mem_insertDesc, ih]

theorem pairwise_insertDesc {m : MergedIngredient} {l : List MergedIngredient}
    (h : l.Pairwise (fun a b => b.confidence ≤ a.confidence)) :
    (insertDesc m l).Pairwise (fun a b => b.confidence ≤ a.confidence) := by
  induction l with
  | nil => simp [insertDesc]
  | cons x xs ih =>
    rcases List.pairwise_cons.mp h with ⟨hx, hxs⟩
    by_cases hc : m.confidence < x.confidence
    · rw [insertDesc, if_pos hc]
      refine List.pairwise_cons.mpr ⟨?_, ih hxs⟩
      intro y hy
      rcases mem_insertDesc.mp hy with rfl | hy
      · exact le_of_lt hc
      · exact hx y hy
    · rw [insertDesc, if_neg hc]
      refine List.pairwise_cons.mpr ⟨?_, h⟩
      intro y hy
      rcases List.mem_cons.mp hy with rfl | hy
      · exact not_lt.mp hc
      · exact le_trans (hx y hy) (not_lt.mp hc)

theorem pairwise_sortByConfDesc (l : List MergedIngredient) :
    (sortByConfDesc l).Pairwise (fun a b => b.confidence ≤ a.confidence) := by
  induction l with
  | nil => simp [sortByConfDesc]
  | cons x xs ih => exact pairwise_insertDesc ih

theorem filter_insertDesc (c : Rat) (m : MergedIngredient) (l : List MergedIngredient) :
    (insertDesc m l).filter (fun e => e.confidence == c)
      = if m.confidence == c
        then m :: l.filter (fun e => e.confidence == c)
        else l.filter (fun e => e.confidence == c) := by
  induction l with
  | nil =>
    by_cases hmc : m.confidence = c <;> simp [insertDesc, hmc]
  | cons x xs ih =>
    by_cases hc : m.confidence < x.confidence
    · rw [insertDesc, if_pos hc]
      by_cases hmc : m.confidence = c
      · have hxne : ¬ x.confidence = c := by
          intro hx
          exact absurd (hmc ▸ hx ▸ hc) (lt_irrefl _)
        simp [List.filter_cons, hxne, ih, hmc]
      · simp [List.filter_cons, ih, hmc]
    · rw [insertDesc, if_neg hc]
      by_cases hmc : m.confidence = c
      · simp [List.filter_cons, hmc]
      · simp [List.filter_cons, hmc]

theorem filter_sortByConfDesc (c : Rat) (l : List MergedIngredient) :
    (sortByConfDesc l).filter (fun e => e.confidence == c)
      = l.filter (fun e => e.confidence == c) := by
  induction l with
  | nil => simp [sortByConfDesc]
  | cons x xs ih =>
    rw [sortByConfDesc, filter_insertDesc, List.filter_cons]
    by_cases hmc : x.confidence = c
    · simp [hmc, ih]
    · simp [hmc, ih]

theorem merge_eq_sort_mergeFiltered (l r : List RawDetection) :
    merge_detection_results l r = sortByConfDesc (mergeFiltered l r) := by
  unfold merge_detection_results mergeFiltered
  cases mergeDict l r <;> rfl

/-! Step equations and structural lemmas for the two dict-building phases. -/

theorem processLocal_nil (d : List MergedIngredient) : processLocal d [] = .ok d := rfl

theorem processLocal_cons_some (d : List MergedIngredient) (nm : String) (c : Rat)
    (rest : List RawDetection) :
    processLocal d (⟨some nm, some c⟩ :: rest)
      = processLocal
          (if d.any (fun x => x.name == pyLower nm)
           then d.map (fun x =>
             if x.name == pyLower nm then ⟨pyLower nm, c * 0.6, ["local_ml"]⟩ else x)
           else d ++ [⟨pyLower nm, c * 0.6, ["local_ml"]⟩]) rest := rfl

theorem processLocal_cons_noName (d : List MergedIngredient) (c : Option Rat)
    (rest : List RawDetection) :
    processLocal d (⟨none, c⟩ :: rest) = .error () := rfl

theorem processLocal_cons_noConf (d : List MergedIngredient) (nm : String)
    (rest : List RawDetection) :
    processLocal d (⟨some nm, none⟩ :: rest) = .error () := rfl

theorem processRemote_nil (d : List MergedIngredient) : processRemote d [] = .ok d := rfl

theorem processRemote_cons_some (d : List MergedIngredient) (nm : String) (c : Rat)
    (rest : List RawDetection) :
    processRemote d (⟨some nm, some c⟩ :: rest)
      = processRemote
          (if d.any (fun x => x.name == pyLower nm)
           then d.map (fun x =>
             if x.name == pyLower nm
             then { x with
                    confidence := min ((x.confidence + c * 0.4) * 1.2) 1.0,
                    sources := x.sources ++ ["openai_vision"] }
             else x)
           else d ++ [⟨pyLower nm, c * 0.4, ["openai_vision"]⟩]) rest := rfl

theorem processRemote_cons_noName (d : List MergedIngredient) (c : Option Rat)
    (rest : List RawDetection) :
    processRemote d (⟨none, c⟩ :: rest) = .error () := rfl

theorem processRemote_cons_noConf (d : List MergedIngredient) (nm : String)
    (rest : List RawDetection) :
    processRemote d (⟨some nm, none⟩ :: rest) = .error () := rfl

theorem mergeDict_ok {l r : List RawDetection} {d : List MergedIngredient}
    (h : mergeDict l r = .ok d) :
    ∃ d1, processLocal [] l = .ok d1 ∧ processRemote d1 r = .ok d := by
  unfold mergeDict at h
  cases hpl : processLocal [] l with
  | ok d1 =>
    rw [hpl] at h
    exact ⟨d1, rfl, h⟩
  | error e =>
    rw [hpl] at h
    simp [Bind.bind, Except.bind] at h

theorem seenFold_nil (acc : List String) : seenFold acc [] = acc := rfl

theorem seenFold_cons (acc : List String) (k : String) (ks : List String) :
    seenFold acc (k :: ks) = seenFold (if k ∈ acc then acc else acc ++ [k]) ks := rfl

theorem mem_seenFold :
    ∀ (ks acc : List String) (x : String), x ∈ seenFold acc ks → x ∈ acc ∨ x ∈ ks := by
  intro ks
  induction ks with
  | nil => intro acc x h; exact Or.inl h
  | cons k ks ih =>
    intro acc x h
    rw [seenFold_cons] at h
    rcases ih _ x h with hacc | hks
    · by_cases hk : k ∈ acc
      · rw [if_pos hk] at hacc; exact Or.inl hacc
      · rw [if_neg hk] at hacc
        rcases List.mem_append.mp hacc with h1 | h1
        · exact Or.inl h1
        · simp at h1; subst h1; exact Or.inr (List.mem_cons_self _ _)
    · exact Or.inr (List.mem_cons_of_mem _ hks)

theorem any_name_eq (d : List MergedIngredient) (key : String) :
    (d.any fun x => x.name == key) = true ↔ key ∈ d.map (fun m => m.name) := by
  simp [List.any_eq_true, List.mem_map]

theorem names_replace (d : List MergedIngredient) (key : String) (entry : MergedIngredient)
    (hk : entry.name = key) :
    ((d.map fun x => if x.name == key then entry else x).map fun m => m.name)
      = d.map fun m => m.name := by
  rw [List.map_map]
  apply List.map_congr_left
  intro x _
  by_cases h : x.name = key <;> simp [h, hk]

theorem names_processLocal :
    ∀ (l : List RawDetection) (d d' : List MergedIngredient), processLocal d l = .ok d' →
      (d'.map fun m => m.name) = seenFold (d.map fun m => m.name) (l.map rawKey) := by
  intro l
  induction l with
  | nil =>
    intro d d' h
    rw [processLocal_nil] at h
    cases h
    rfl
  | cons e rest ih =>
    intro d d' h
    rcases e with ⟨n?, c?⟩
    cases n? with
    | none => rw [processLocal_cons_noName] at h; cases h
    | some nm =>
      cases c? with
      | none => rw [processLocal_cons_noConf] at h; cases h
      | some c =>
        rw [processLocal_cons_some] at h
        have hkey : rawKey ⟨some nm, some c⟩ = pyLower nm := rfl
        rw [List.map_cons, hkey, seenFold_cons]
        by_cases hin : (d.any fun x => x.name == pyLower nm) = true
        · rw [if_pos hin] at h
          have := ih _ _ h
          rw [names_replace d (pyLower nm) ⟨pyLower nm, c * 0.6, ["local_ml"]⟩ rfl] at this
          rw [this, if_pos ((any_name_eq d (pyLower nm)).mp hin)]
        · rw [if_neg hin] at h
          have := ih _ _ h
          rw [this]
          have hnot : pyLower nm ∉ d.map fun m => m.name := fun hmem =>
            hin ((any_name_eq d (pyLower nm)).mpr hmem)
          rw [if_neg hnot, List.map_append]
          rfl

theorem names_boost (d : List MergedIngredient) (key : String) (c : Rat) :
    ((d.map fun x =>
        if x.name == key
        then { x with
               confidence := min ((x.confidence + c * 0.4) * 1.2) 1.0,
               sources := x.sources ++ ["openai_vision"] }
        else x).map fun m => m.name)
      = d.map fun m => m.name := by
  rw [List.map_map]
  apply List.map_congr_left
  intro x _
  by_cases h : x.name = key <;> simp [h]

theorem names_processRemote :
    ∀ (r : List RawDetection) (d d' : List MergedIngredient), processRemote d r = .ok d' →
      (d'.map fun m => m.name) = seenFold (d.map fun m => m.name) (r.map rawKey) := by
  intro r
  induction r with
  | nil =>
    intro d d' h
    rw [processRemote_nil] at h
    cases h
    rfl
  | cons e rest ih =>
    intro d d' h
    rcases e with ⟨n?, c?⟩
    cases n? with
    | none => rw [processRemote_cons_noName] at h; cases h
    | some nm =>
      cases c? with
      | none => rw [processRemote_cons_noConf] at h; cases h
      | some c =>
        rw [processRemote_cons_some] at h
        have hkey : rawKey ⟨some nm, some c⟩ = pyLower nm := rfl
        rw [List.map_cons, hkey, seenFold_cons]
        by_cases hin : (d.any fun x => x.name == pyLower nm) = true
        · rw [if_pos hin] at h
          have := ih _ _ h
          rw [names_boost] at this
          rw [this, if_pos ((any_name_eq d (pyLower nm)).mp hin)]
        · rw [if_neg hin] at h
          have := ih _ _ h
          rw [this]
          have hnot : pyLower nm ∉ d.map fun m => m.name := fun hmem =>
            hin ((any_name_eq d (pyLower nm)).mpr hmem)
          rw [if_neg hnot, List.map_append]
          rfl

theorem processLocal_preserve :
    ∀ (l : List RawDetection) (d d' : List MergedIngredient) (m : MergedIngredient),
      processLocal d l = .ok d' → m ∈ d → (∀ e ∈ l, rawKey e ≠ m.name) → m ∈ d' := by
  intro l
  induction l with
  | nil =>
    intro d d' m h hm _
    rw [processLocal_nil] at h
    cases h
    exact hm
  | cons e rest ih =>
    intro d d' m h hm hne
    rcases e with ⟨n?, c?⟩
    cases n? with
    | none => rw [processLocal_cons_noName] at h; cases h
    | some nm =>
      cases c? with
      | none => rw [processLocal_cons_noConf] at h; cases h
      | some c =>
        rw [processLocal_cons_some] at h
        have hkey : pyLower nm ≠ m.name := hne _ (List.mem_cons_self _ _)
        have hrest : ∀ e ∈ rest, rawKey e ≠ m.name := fun e he =>
          hne e (List.mem_cons_of_mem _ he)
        by_cases hin : (d.any fun x => x.name == pyLower nm) = true
        · rw [if_pos hin] at h
          refine ih _ _ _ h ?_ hrest
          refine List.mem_map.mpr ⟨m, hm, ?_⟩
          have : ¬ m.name = pyLower nm := fun hmn => hkey hmn.symm
          simp [this]
        · rw [if_neg hin] at h
          exact ih _ _ _ h (List.mem_append.mpr (Or.inl hm)) hrest

theorem processRemote_preserve :
    ∀ (r : List RawDetection) (d d' : List MergedIngredient) (m : MergedIngredient),
      processRemote d r = .ok d' → m ∈ d → (∀ e ∈ r, rawKey e ≠ m.name) → m ∈ d' := by
  intro r
  induction r with
  | nil =>
    intro d d' m h hm _
    rw [processRemote_nil] at h
    cases h
    exact hm
  | cons e rest ih =>
    intro d d' m h hm hne
    rcases e with ⟨n?, c?⟩
    cases n? with
    | none => rw [processRemote_cons_noName] at h; cases h
    | some nm =>
      cases c? with
      | none => rw [processRemote_cons_noConf] at h; cases h
      | some c =>
        rw [processRemote_cons_some] at h
        have hkey : pyLower nm ≠ m.name := hne _ (List.mem_cons_self _ _)
        have hrest : ∀ e ∈ rest, rawKey e ≠ m.name := fun e he =>
          hne e (List.mem_cons_of_mem _ he)
        by_cases hin : (d.any fun x => x.name == pyLower nm) = true
        · rw [if_pos hin] at h
          refine ih _ _ _ h ?_ hrest
          refine List.mem_map.mpr ⟨m, hm, ?_⟩
          have : ¬ m.name = pyLower nm := fun hmn => hkey hmn.symm
          simp [this]
        · rw [if_neg hin] at h
          exact ih _ _ _ h (List.mem_append.mpr (Or.inl hm)) hrest

theorem processLocal_mem :
    ∀ (l : List RawDetection) (d d' : List MergedIngredient) (e : RawDetection)
      (nm : String) (c : Rat),
      processLocal d l = .ok d' → e ∈ l → e.name = some nm → e.confidence = some c →
      (l.map rawKey).Nodup →
      (⟨pyLower nm, c * 0.6, ["local_ml"]⟩ : MergedIngredient) ∈ d' := by
  intro l
  induction l with
  | nil => intro _ _ _ _ _ _ he; cases he
  | cons e0 rest ih =>
    intro d d' e nm c h he hnm hc hnd
    rcases e0 with ⟨n?, c?⟩
    cases n? with
    | none => rw [processLocal_cons_noName] at h; cases h
    | some nm0 =>
      cases c? with
      | none => rw [processLocal_cons_noConf] at h; cases h
      | some c0 =>
        rw [processLocal_cons_some] at h
        rw [List.map_cons, List.nodup_cons] at hnd
        rcases List.mem_cons.mp he with rfl | he0
        · cases hnm
          cases hc
          have hnd1 : pyLower nm ∉ List.map rawKey rest := hnd.1
          have hrest : ∀ f ∈ rest, rawKey f ≠ pyLower nm := by
            intro f hf hkf
            exact hnd1 (hkf ▸ List.mem_map.mpr ⟨f, hf, rfl⟩)
          by_cases hin : (d.any fun x => x.name == pyLower nm) = true
          · rw [if_pos hin] at h
            refine processLocal_preserve rest _ _ _ h ?_ hrest
            rcases List.any_eq_true.mp hin with ⟨x, hx, hxname⟩
            refine List.mem_map.mpr ⟨x, hx, ?_⟩
            simp [hxname]
          · rw [if_neg hin] at h
            exact processLocal_preserve rest _ _ _ h
              (List.mem_append.mpr (Or.inr (List.mem_cons_self _ _))) hrest
        · by_cases hin : (d.any fun x => x.name == pyLower nm0) = true
          · rw [if_pos hin] at h
            exact ih _ _ e nm c h he0 hnm hc hnd.2
          · rw [if_neg hin] at h
            exact ih _ _ e nm c h he0 hnm hc hnd.2

theorem processRemote_new :
    ∀ (r : List RawDetection) (d d' : List MergedIngredient) (e : RawDetection)
      (nm : String) (c : Rat),
      processRemote d r = .ok d' → e ∈ r → e.name = some nm → e.confidence = some c →
      (r.map rawKey).Nodup → pyLower nm ∉ d.map (fun m => m.name) →
      (⟨pyLower nm, c * 0.4, ["openai_vision"]⟩ : MergedIngredient) ∈ d' := by
  intro r
  induction r with
  | nil => intro _ _ _ _ _ _ he; cases he
  | cons e0 rest ih =>
    intro d d' e nm c h he hnm hc hnd hnotin
    rcases e0 with ⟨n?, c?⟩
    cases n? with
    | none => rw [processRemote_cons_noName] at h; cases h
    | some nm0 =>
      cases c? with
      | none => rw [processRemote_cons_noConf] at h; cases h
      | some c0 =>
        rw [processRemote_cons_some] at h
        rw [List.map_cons, List.nodup_cons] at hnd
        rcases List.mem_cons.mp he with rfl | he0
        · cases hnm
          cases hc
          have hnd1 : pyLower nm ∉ List.map rawKey rest := hnd.1
          have hrest : ∀ f ∈ rest, rawKey f ≠ pyLower nm := by
            intro f hf hkf
            exact hnd1 (hkf ▸ List.mem_map.mpr ⟨f, hf, rfl⟩)
          have hin : ¬ (d.any fun x => x.name == pyLower nm) = true := fun hany =>
            hnotin ((any_name_eq d (pyLower nm)).mp hany)
          rw [if_neg hin] at h
          exact processRemote_preserve rest _ _ _ h
            (List.mem_append.mpr (Or.inr (List.mem_cons_self _ _))) hrest
        · have hne0 : pyLower nm0 ≠ pyLower nm := by
            intro heq
            have hnd1 : pyLower nm0 ∉ List.map rawKey rest := hnd.1
            have hre : rawKey e = pyLower nm := by simp [rawKey, hnm]
            refine hnd1 ?_
            rw [heq, ← hre]
            exact List.mem_map.mpr ⟨e, he0, rfl⟩
          by_cases hin : (d.any fun x => x.name == pyLower nm0) = true
          · rw [if_pos hin] at h
            refine ih _ _ e nm c h he0 hnm hc hnd.2 ?_
            rw [names_boost]
            exact hnotin
          · rw [if_neg hin] at h
            refine ih _ _ e nm c h he0 hnm hc hnd.2 ?_
            rw [List.map_append]
            intro hmem
            rcases List.mem_append.mp hmem with h1 | h1
            · exact hnotin h1
            · simp at h1
              exact hne0 h1.symm

theorem processRemote_boost :
    ∀ (r : List RawDetection) (d d' : List MergedIngredient) (m : MergedIngredient)
      (e : RawDetection) (nm : String) (c : Rat),
      processRemote d r = .ok d' → m ∈ d → e ∈ r → e.name = some nm →
      e.confidence = some c → pyLower nm = m.name → (r.map rawKey).Nodup →
      ({ m with
         confidence := min ((m.confidence + c * 0.4) * 1.2) 1.0,
         sources := m.sources ++ ["openai_vision"] } : MergedIngredient) ∈ d' := by
  intro r
  induction r with
  | nil => intro _ _ _ _ _ _ _ _ he; cases he
  | cons e0 rest ih =>
    intro d d' m e nm c h hm he hnm hc hkeq hnd
    rcases e0 with ⟨n?, c?⟩
    cases n? with
    | none => rw [processRemote_cons_noName] at h; cases h
    | some nm0 =>
      cases c? with
      | none => rw [processRemote_cons_noConf] at h; cases h
      | some c0 =>
        rw [processRemote_cons_some] at h
        rw [List.map_cons, List.nodup_cons] at hnd
        rcases List.mem_cons.mp he with rfl | he0
        · cases hnm
          cases hc
          have hnd1 : pyLower nm ∉ List.map rawKey rest := hnd.1
          have hrest : ∀ f ∈ rest, rawKey f ≠ m.name := by
            intro f hf hkf
            refine hnd1 ?_
            rw [hkeq, ← hkf]
            exact List.mem_map.mpr ⟨f, hf, rfl⟩
          have hin : (d.any fun x => x.name == pyLower nm) = true := by
            refine (any_name_eq d (pyLower nm)).mpr ?_
            rw [hkeq]
            exact List.mem_map.mpr ⟨m, hm, rfl⟩
          rw [if_pos hin] at h
          refine processRemote_preserve rest _ _ _ h ?_ hrest
          refine List.mem_map.mpr ⟨m, hm, ?_⟩
          rw [← hkeq]
          simp
        · have hne0 : pyLower nm0 ≠ m.name := by
            intro heq
            have hnd1 : pyLower nm0 ∉ List.map rawKey rest := hnd.1
            have hre : rawKey e = pyLower nm := by simp [rawKey, hnm]
            refine hnd1 ?_
            rw [heq, ← hkeq, ← hre]
            exact List.mem_map.mpr ⟨e, he0, rfl⟩
          by_cases hin : (d.any fun x => x.name == pyLower nm0) = true
          · rw [if_pos hin] at h
            refine ih _ _ _ e nm c h ?_ he0 hnm hc hkeq hnd.2
            refine List.mem_map.mpr ⟨m, hm, ?_⟩
            have : ¬ m.name = pyLower nm0 := fun hmn => hne0 hmn.symm
            simp [this]
          · rw [if_neg hin] at h
            exact ih _ _ _ e nm c h (List.mem_append.mpr (Or.inl hm)) he0 hnm hc hkeq hnd.2

theorem processLocal_error :
    ∀ (l : List RawDetection) (d : List MergedIngredient),
      (∃ e ∈ l, e.name = none ∨ e.confidence = none) → processLocal d l = .error () := by
  intro l
  induction l with
  | nil => intro d h; rcases h with ⟨e, he, _⟩; cases he
  | cons e0 rest ih =>
    intro d h
    rcases e0 with ⟨n?, c?⟩
    cases n? with
    | none => exact processLocal_cons_noName d c? rest
    | some nm =>
      cases c? with
      | none => exact processLocal_cons_noConf d nm rest
      | some c =>
        rw [processLocal_cons_some]
        refine ih _ ?_
        rcases h with ⟨e, he, hbad⟩
        rcases List.mem_cons.mp he with rfl | he0
        · rcases hbad with hbad | hbad <;> cases hbad
        · exact ⟨e, he0, hbad⟩

theorem processRemote_error :
    ∀ (r : List RawDetection) (d : List MergedIngredient),
      (∃ e ∈ r, e.name = none ∨ e.confidence = none) → processRemote d r = .error () := by
  intro r
  induction r with
  | nil => intro d h; rcases h with ⟨e, he, _⟩; cases he
  | cons e0 rest ih =>
    intro d h
    rcases e0 with ⟨n?, c?⟩
    cases n? with
    | none => exact processRemote_cons_noName d c? rest
    | some nm =>
      cases c? with
      | none => exact processRemote_cons_noConf d nm rest
      | some c =>
        rw [processRemote_cons_some]
        refine ih _ ?_
        rcases h with ⟨e, he, hbad⟩
        rcases List.mem_cons.mp he with rfl | he0
        · rcases hbad with hbad | hbad <;> cases hbad
        · exact ⟨e, he0, hbad⟩

theorem processLocal_ok_wf :
    ∀ (l : List RawDetection) (d d' : List MergedIngredient), processLocal d l = .ok d' →
      ∀ e ∈ l, ∃ nm c, e.name = some nm ∧ e.confidence = some c := by
  intro l
  induction l with
  | nil => intro _ _ _ e he; cases he
  | cons e0 rest ih =>
    intro d d' h e he
    rcases e0 with ⟨n?, c?⟩
    cases n? with
    | none => rw [processLocal_cons_noName] at h; cases h
    | some nm =>
      cases c? with
      | none => rw [processLocal_cons_noConf] at h; cases h
      | some c =>
        rw [processLocal_cons_some] at h
        rcases List.mem_cons.mp he with rfl | he0
        · exact ⟨nm, c, rfl, rfl⟩
        · exact ih _ _ h e he0

theorem processRemote_ok_wf :
    ∀ (r : List RawDetection) (d d' : List MergedIngredient), processRemote d r = .ok d' →
      ∀ e ∈ r, ∃ nm c, e.name = some nm ∧ e.confidence = some c := by
  intro r
  induction r with
  | nil => intro _ _ _ e he; cases he
  | cons e0 rest ih =>
    intro d d' h e he
    rcases e0 with ⟨n?, c?⟩
    cases n? with
    | none => rw [processRemote_cons_noName] at h; cases h
    | some nm =>
      cases c? with
      | none => rw [processRemote_cons_noConf] at h; cases h
      | some c =>
        rw [processRemote_cons_some] at h
        rcases List.mem_cons.mp he with rfl | he0
        · exact ⟨nm, c, rfl, rfl⟩
        · exact ih _ _ h e he0

theorem mem_merge_iff {l r : List RawDetection} {d : List MergedIngredient}
    (h : mergeDict l r = .ok d) (m : MergedIngredient) :
    m ∈ merge_detection_results l r ↔ m ∈ d ∧ 0.3 < m.confidence := by
  unfold merge_detection_results
  rw [h]
  rw [mem_sortByConfDesc, List.mem_filter]
  simp

/-! Helper lemmas about the fallback recipe constructions. -/

theorem string_append_ne_empty_of_left (a b : String) (ha : a.data ≠ []) : a ++ b ≠ "" := by
  intro h
  have hd : (a ++ b).data = ("" : String).data := by rw [h]
  rw [String.data_append] at hd
  simp at hd
  exact ha hd.1

theorem string_append_ne_empty_of_right (a b : String) (hb : b.data ≠ []) : a ++ b ≠ "" := by
  intro h
  have hd : (a ++ b).data = ("" : String).data := by rw [h]
  rw [String.data_append] at hd
  simp at hd
  exact hb hd.2

theorem grainTemplate_valid (ingredients : List String) (first : String) :
    validRecipe (grainTemplate ingredients first) := by
  unfold validRecipe grainTemplate
  refine ⟨?_, ?_, ?_, ?_, ?_, ?_⟩
  · exact string_append_ne_empty_of_right _ _ (by decide)
  · simp
  · intro s hs
    simp only [List.mem_cons] at hs
    rcases hs with rfl | rfl | rfl | rfl | rfl | rfl | h
    · exact string_append_ne_empty_of_left _ _ (by decide)
    · decide
    · decide
    · decide
    · decide
    · decide
    · cases h
  · simp
  · simp
  · simp

theorem proteinTemplate_valid (first : String) : validRecipe (proteinTemplate first) := by
  unfold validRecipe proteinTemplate
  refine ⟨?_, ?_, ?_, ?_, ?_, ?_⟩
  · exact string_append_ne_empty_of_right _ _ (by decide)
  · simp
  · intro s hs
    simp only [List.mem_cons] at hs
    rcases hs with rfl | rfl | rfl | rfl | rfl | rfl | h
    · exact string_append_ne_empty_of_left _ _ (by decide)
    · decide
    · decide
    · decide
    · decide
    · decide
    · cases h
  · simp
  · simp
  · simp

theorem vegetableStirFryTemplate_valid : validRecipe vegetableStirFryTemplate := by
  with_unfolding_all decide

theorem simpleIngredientMix_valid : validRecipe simpleIngredientMix := by
  with_unfolding_all decide

theorem classify_grain (ingredients : List String)
    (h : ∃ g ∈ grainKeywords, g ∈ ingredients) :
    classifyRecipeType ingredients = "grain_based" := by
  unfold classifyRecipeType
  rw [if_pos]
  simp only [List.any_eq_true]
  rcases h with ⟨g, hg, hin⟩
  exact ⟨g, hg, by simpa using hin⟩

theorem classify_protein (ingredients : List String)
    (h1 : ∀ g ∈ grainKeywords, g ∉ ingredients)
    (h2 : ∃ p ∈ proteinKeywords, p ∈ ingredients) :
    classifyRecipeType ingredients = "protein_based" := by
  unfold classifyRecipeType
  rw [if_neg, if_pos]
  · simp only [List.any_eq_true]
    rcases h2 with ⟨p, hp, hin⟩
    exact ⟨p, hp, by simpa using hin⟩
  · simp only [List.any_eq_true]
    rintro ⟨g, hg, hin⟩
    exact h1 g hg (by simpa using hin)

theorem classify_veg (ingredients : List String)
    (h1 : ∀ g ∈ grainKeywords, g ∉ ingredients)
    (h2 : ∀ p ∈ proteinKeywords, p ∉ ingredients) :
    classifyRecipeType ingredients = "vegetable_stir_fry" := by
  unfold classifyRecipeType
  rw [if_neg, if_neg]
  · simp only [List.any_eq_true]
    rintro ⟨p, hp, hin⟩
    exact h2 p hp (by simpa using hin)
  · simp only [List.any_eq_true]
    rintro ⟨g, hg, hin⟩
    exact h1 g hg (by simpa using hin)

theorem fallback_of_empty (req : GeneratedRecipeRequest) (h : req.ingredients = []) :
    fallback_rule_based_recipe req = simpleIngredientMix := by
  unfold fallback_rule_based_recipe
  rw [h]
  rfl

theorem fallback_eq_grain (req : GeneratedRecipeRequest) (first : String) (rest : List String)
    (h : req.ingredients = first :: rest)
    (hg : ∃ g ∈ grainKeywords, g ∈ req.ingredients) :
    fallback_rule_based_recipe req = grainTemplate req.ingredients first := by
  have hc := classify_grain req.ingredients hg
  unfold fallback_rule_based_recipe
  rw [h] at hc ⊢
  simp [hc]

theorem fallback_eq_protein (req : GeneratedRecipeRequest) (first : String) (rest : List String)
    (h : req.ingredients = first :: rest)
    (h1 : ∀ g ∈ grainKeywords, g ∉ req.ingredients)
    (h2 : ∃ p ∈ proteinKeywords, p ∈ req.ingredients) :
    fallback_rule_based_recipe req = proteinTemplate first := by
  have hc := classify_protein req.ingredients h1 h2
  unfold fallback_rule_based_recipe
  rw [h] at hc ⊢
  simp [hc]

theorem fallback_eq_veg (req : GeneratedRecipeRequest) (first : String) (rest : List String)
    (h : req.ingredients = first :: rest)
    (h1 : ∀ g ∈ grainKeywords, g ∉ req.ingredients)
    (h2 : ∀ p ∈ proteinKeywords, p ∉ req.ingredients) :
    fallback_rule_based_recipe req = vegetableStirFryTemplate := by
  have hc := classify_veg req.ingredients h1 h2
  unfold fallback_rule_based_recipe
  rw [h] at hc ⊢
  simp [hc]

theorem classify_cases (ingredients : List String) :
    classifyRecipeType ingredients = "grain_based"
      ∨ classifyRecipeType ingredients = "protein_based"
      ∨ classifyRecipeType ingredients = "vegetable_stir_fry" := by
  unfold classifyRecipeType
  by_cases h1 : (grainKeywords.any fun g => ingredients.contains g) = true
  · rw [if_pos h1]; exact Or.inl rfl
  · rw [if_neg h1]
    by_cases h2 : (proteinKeywords.any fun p => ingredients.contains p) = true
    · rw [if_pos h2]; exact Or.inr (Or.inl rfl)
    · rw [if_neg h2]; exact Or.inr (Or.inr rfl)

theorem fallback_valid (req : GeneratedRecipeRequest) :
    validRecipe (fallback_rule_based_recipe req) := by
  cases hing : req.ingredients with
  | nil => rw [fallback_of_empty req hing]; exact simpleIngredientMix_valid
  | cons first rest =>
    unfold fallback_rule_based_recipe
    rw [hing]
    rcases classify_cases (first :: rest) with hc | hc | hc
    all_goals simp only [List.head?, hc]
    · exact grainTemplate_valid _ _
    · exact proteinTemplate_valid _
    · exact vegetableStirFryTemplate_valid

theorem mergeDict_of_local_ok {l : List RawDetection} {d1 : List MergedIngredient}
    (r : List RawDetection) (hpl : processLocal [] l = .ok d1) :
    mergeDict l r = processRemote d1 r := by
  unfold mergeDict
  rw [hpl]
  rfl

theorem mergeDict_of_local_error {l : List RawDetection} (r : List RawDetection)
    (hpl : processLocal [] l = .error ()) : mergeDict l r = .error () := by
  unfold mergeDict
  rw [hpl]
  rfl

/-! Claim theorems. -/

/-- Claim C1, counterexample: a syntactically well-formed generative reply
with an empty title, no steps, zero estimated time and an out-of-range
difficulty validates against the pydantic model, so generate_ai_recipe
returns it verbatim and the result violates the section-3 Recipe
invariants — the synthesizer does not always return a valid Recipe. -/
theorem generate_ai_recipe_bypasses_invariants :
    generate_ai_recipe (mkRequest ["rice"]) (some badReply)
      = ⟨"", [], 0, "impossible", none, 4⟩ ∧
    (generate_ai_recipe (mkRequest ["rice"]) (some badReply)).title = "" ∧
    (generate_ai_recipe (mkRequest ["rice"]) (some badReply)).steps = [] ∧
    ¬ validRecipe (generate_ai_recipe (mkRequest ["rice"]) (some badReply)) := by
  refine ⟨?_, ?_, ?_, ?_⟩ <;> with_unfolding_all decide

/-- Claim C1, amended: generate_ai_recipe never fails, and whenever the
generative collaborator raises or its reply fails JSON decoding or pydantic
validation, the result is the rule-based fallback, which satisfies the
section-3 Recipe invariants for every request; only a reply that validates
is returned verbatim (with unchecked field values). -/
theorem generate_ai_recipe_fallback_valid (request : GeneratedRecipeRequest)
    (response : Option Json)
    (hfail : response = none ∨ ∃ j, response = some j ∧ GeneratedRecipe.ofJson j = none) :
    generate_ai_recipe request response = fallback_rule_based_recipe request ∧
    validRecipe (generate_ai_recipe request response) := by
  have heq : generate_ai_recipe request response = fallback_rule_based_recipe request := by
    rcases hfail with rfl | ⟨j, rfl, hj⟩
    · rfl
    · simp [generate_ai_recipe, hj]
  exact ⟨heq, heq ▸ fallback_valid request⟩

/-- Witness for the amended claim C1 at a concrete failing response. -/
theorem generate_ai_recipe_fallback_valid_witness :
    generate_ai_recipe (mkRequest ["rice"]) none
        = fallback_rule_based_recipe (mkRequest ["rice"]) ∧
    validRecipe (generate_ai_recipe (mkRequest ["rice"]) none) :=
  generate_ai_recipe_fallback_valid (mkRequest ["rice"]) none (Or.inl rfl)

/-- Claim C2, counterexample: local tomato 0.9 together with remote tomato
0.8 yields confidence min((0.54 + 0.32) * 1.2, 1.0) = min(1.032, 1.0) = 1.0,
not the 0.8208 stated in the claim. -/
theorem merge_agreement_example_capped :
    merge_detection_results [det "tomato" 0.9] [det "tomato" 0.8]
      = [⟨"tomato", 1, ["local_ml", "openai_vision"]⟩] ∧
    (1 : Rat) ≠ 0.8208 := by
  constructor
  · with_unfolding_all decide
  · with_unfolding_all decide

/-- Claim C2, amended: with names unique within each input list, a name
found only by the local detector gets confidence local * 0.6, a name found
only by the remote detector gets remote * 0.4, and a name found by both
gets min((local * 0.6 + remote * 0.4) * 1.2, 1.0) with both sources; the
merge output is exactly the dict records with confidence above 0.3.  The
worked example of the claim is corrected to 1.0. -/
theorem merge_weighting_rule :
    (∀ l r d, mergeDict l r = .ok d →
      (l.map rawKey).Nodup → (r.map rawKey).Nodup →
      (∀ e nm c, e ∈ l → e.name = some nm → e.confidence = some c →
          (∀ f ∈ r, rawKey f ≠ pyLower nm) →
          (⟨pyLower nm, c * 0.6, ["local_ml"]⟩ : MergedIngredient) ∈ d) ∧
      (∀ e nm c, e ∈ r → e.name = some nm → e.confidence = some c →
          (∀ f ∈ l, rawKey f ≠ pyLower nm) →
          (⟨pyLower nm, c * 0.4, ["openai_vision"]⟩ : MergedIngredient) ∈ d) ∧
      (∀ e nm c f nm2 c2, e ∈ l → e.name = some nm → e.confidence = some c →
          f ∈ r → f.name = some nm2 → f.confidence = some c2 →
          pyLower nm2 = pyLower nm →
          (⟨pyLower nm, min ((c * 0.6 + c2 * 0.4) * 1.2) 1.0,
            ["local_ml", "openai_vision"]⟩ : MergedIngredient) ∈ d) ∧
      (∀ m, m ∈ merge_detection_results l r ↔ m ∈ d ∧ 0.3 < m.confidence)) ∧
    merge_detection_results [det "tomato" 0.9] [det "tomato" 0.8]
      = [⟨"tomato", 1, ["local_ml", "openai_vision"]⟩] := by
  constructor
  · intro l r d hok hndl hndr
    rcases mergeDict_ok hok with ⟨d1, hpl, hpr⟩
    refine ⟨?_, ?_, ?_, fun m => mem_merge_iff hok m⟩
    · intro e nm c hel hnm hc hnotr
      have hmem1 : (⟨pyLower nm, c * 0.6, ["local_ml"]⟩ : MergedIngredient) ∈ d1 :=
        processLocal_mem l [] d1 e nm c hpl hel hnm hc hndl
      exact processRemote_preserve r d1 d _ hpr hmem1 hnotr
    · intro e nm c her hnm hc hnotl
      refine processRemote_new r d1 d e nm c hpr her hnm hc hndr ?_
      intro hmem
      rw [names_processLocal l [] d1 hpl] at hmem
      rcases mem_seenFold _ _ _ hmem with h0 | h1
      · cases h0
      · rcases List.mem_map.mp h1 with ⟨f, hf, hkf⟩
        exact hnotl f hf hkf
    · intro e nm c f nm2 c2 hel hnm hc hfr hnm2 hc2 hkeq
      have hmem1 : (⟨pyLower nm, c * 0.6, ["local_ml"]⟩ : MergedIngredient) ∈ d1 :=
        processLocal_mem l [] d1 e nm c hpl hel hnm hc hndl
      exact processRemote_boost r d1 d _ f nm2 c2 hpr hmem1 hfr hnm2 hc2 hkeq hndr
  · with_unfolding_all decide

/-- Witness for the amended claim C2: local-only tomato 0.9 lands in the
dict with confidence 0.9 * 0.6. -/
theorem merge_weighting_rule_witness :
    (⟨pyLower "tomato", 0.9 * 0.6, ["local_ml"]⟩ : MergedIngredient)
      ∈ [⟨"tomato", 0.54, ["local_ml"]⟩, ⟨"basil", 0.32, ["openai_vision"]⟩] :=
  ((merge_weighting_rule.1 [det "tomato" 0.9] [det "basil" 0.8]
      [⟨"tomato", 0.54, ["local_ml"]⟩, ⟨"basil", 0.32, ["openai_vision"]⟩]
      (by with_unfolding_all rfl) (by with_unfolding_all decide)
      (by with_unfolding_all decide)).1) (det "tomato" 0.9) "tomato" 0.9
    (List.mem_singleton.mpr rfl) rfl rfl (by with_unfolding_all decide)

/-- Claim C3: every entry of the merge output has confidence strictly
greater than 0.3, and the lone local parsley 0.4 example (confidence 0.24)
is excluded from the output. -/
theorem merge_confidence_threshold :
    (∀ l r m, m ∈ merge_detection_results l r → 0.3 < m.confidence) ∧
    merge_detection_results [det "parsley" 0.4] [] = [] := by
  constructor
  · intro l r m hm
    unfold merge_detection_results at hm
    cases hd : mergeDict l r with
    | ok d =>
      rw [hd] at hm
      rw [mem_sortByConfDesc, List.mem_filter] at hm
      simpa using hm.2
    | error u => rw [hd] at hm; cases hm
  · with_unfolding_all decide

/-- Witness for claim C3 at a concrete merged entry. -/
theorem merge_confidence_threshold_witness :
    (0.3 : Rat) < (MergedIngredient.mk "tomato" 0.54 ["local_ml"]).confidence :=
  merge_confidence_threshold.1 [det "tomato" 0.9] [] ⟨"tomato", 0.54, ["local_ml"]⟩
    (by with_unfolding_all decide)

/-- Claim C4: the fallback classifies into grain_based, then protein_based,
then vegetable_stir_fry in priority order, and the three example requests
produce the claimed templates and titles. -/
theorem fallback_classification :
    (∀ req first rest, req.ingredients = first :: rest →
      ((∃ g ∈ grainKeywords, g ∈ req.ingredients) →
          fallback_rule_based_recipe req = grainTemplate req.ingredients first) ∧
      ((∀ g ∈ grainKeywords, g ∉ req.ingredients) →
          (∃ p ∈ proteinKeywords, p ∈ req.ingredients) →
          fallback_rule_based_recipe req = proteinTemplate first) ∧
      ((∀ g ∈ grainKeywords, g ∉ req.ingredients) →
          (∀ p ∈ proteinKeywords, p ∉ req.ingredients) →
          fallback_rule_based_recipe req = vegetableStirFryTemplate)) ∧
    fallback_rule_based_recipe (mkRequest ["rice", "egg"])
      = grainTemplate ["rice", "egg"] "rice" ∧
    (fallback_rule_based_recipe (mkRequest ["rice", "egg"])).title = "Rice Bowl" ∧
    fallback_rule_based_recipe (mkRequest ["chicken", "salt"]) = proteinTemplate "chicken" ∧
    fallback_rule_based_recipe (mkRequest ["carrot", "pepper"]) = vegetableStirFryTemplate ∧
    (fallback_rule_based_recipe (mkRequest ["carrot", "pepper"])).title
      = "Mixed Vegetable Stir Fry" := by
  refine ⟨?_, ?_, ?_, ?_, ?_, ?_⟩
  · intro req first rest h
    exact ⟨fallback_eq_grain req first rest h,
           fallback_eq_protein req first rest h,
           fallback_eq_veg req first rest h⟩
  all_goals with_unfolding_all decide

/-- Witness for claim C4 at a concrete grain request. -/
theorem fallback_classification_witness :
    fallback_rule_based_recipe (mkRequest ["pasta"]) = grainTemplate ["pasta"] "pasta" :=
  (fallback_classification.1 (mkRequest ["pasta"]) "pasta" [] rfl).1
    ⟨"pasta", by decide, by decide⟩

/-- Claim C5: the merge output is sorted by confidence descending; entries
of equal confidence keep the order of the pre-sort filtered dict (the sort
is stable), and the dict lists names in the order they were first
encountered across the two inputs. -/
theorem merge_sorted_stable :
    (∀ l r, (merge_detection_results l r).Pairwise
        (fun a b => b.confidence ≤ a.confidence)) ∧
    (∀ l r c, (merge_detection_results l r).filter (fun e => e.confidence == c)
        = (mergeFiltered l r).filter (fun e => e.confidence == c)) ∧
    (∀ l r d, mergeDict l r = .ok d →
        (d.map fun m => m.name) = firstSeen ((l ++ r).map rawKey) ∧
        ((mergeFiltered l r).map fun m => m.name).Sublist
          (firstSeen ((l ++ r).map rawKey))) := by
  refine ⟨?_, ?_, ?_⟩
  · intro l r
    rw [merge_eq_sort_mergeFiltered]
    exact pairwise_sortByConfDesc _
  · intro l r c
    rw [merge_eq_sort_mergeFiltered, filter_sortByConfDesc]
  · intro l r d hok
    rcases mergeDict_ok hok with ⟨d1, hpl, hpr⟩
    have hnames : (d.map fun m => m.name) = firstSeen ((l ++ r).map rawKey) := by
      rw [names_processRemote r d1 d hpr, names_processLocal l [] d1 hpl]
      unfold firstSeen seenFold
      rw [List.map_append, List.foldl_append]
      rfl
    refine ⟨hnames, ?_⟩
    have hf : mergeFiltered l r = d.filter (fun m => 0.3 < m.confidence) := by
      unfold mergeFiltered
      rw [hok]
    rw [hf, ← hnames]
    exact List.Sublist.map _ (List.filter_sublist d)

/-- Witness for claim C5 at concrete inputs. -/
theorem merge_sorted_stable_witness :
    (([⟨"tomato", 0.54, ["local_ml"]⟩,
        ⟨"basil", 0.32, ["openai_vision"]⟩] : List MergedIngredient).map fun m => m.name)
        = firstSeen (([det "tomato" 0.9] ++ [det "basil" 0.8]).map rawKey) ∧
    ((mergeFiltered [det "tomato" 0.9] [det "basil" 0.8]).map fun m => m.name).Sublist
      (firstSeen (([det "tomato" 0.9] ++ [det "basil" 0.8]).map rawKey)) :=
  merge_sorted_stable.2.2 [det "tomato" 0.9] [det "basil" 0.8]
    [⟨"tomato", 0.54, ["local_ml"]⟩, ⟨"basil", 0.32, ["openai_vision"]⟩]
    (by with_unfolding_all rfl)

/-- Claim C6, counterexample: one malformed entry (missing confidence)
makes the whole merge return the empty list, so the well-formed tomato
entry of the same batch, which alone would be returned with confidence
0.54, does not appear in the output. -/
theorem merge_malformed_aborts_batch :
    merge_detection_results [⟨some "salt", none⟩, det "tomato" 0.9] [] = [] ∧
    merge_detection_results [det "tomato" 0.9] [] = [⟨"tomato", 0.54, ["local_ml"]⟩] := by
  constructor
  · with_unfolding_all decide
  · with_unfolding_all decide

/-- Claim C6, amended: the merger never raises and an empty input list
behaves as if that source contributed nothing, but a malformed entry
(missing name or confidence key) does not merely drop that entry — the
KeyError reaches the surrounding except branch and the whole merge returns
the empty list. -/
theorem merge_never_raises_malformed_empties :
    (∀ l r, (∃ e ∈ l ++ r, e.name = none ∨ e.confidence = none) →
        merge_detection_results l r = []) ∧
    (∀ l, mergeDict l [] = processLocal [] l) ∧
    (∀ r, mergeDict [] r = processRemote [] r) := by
  refine ⟨?_, ?_, ?_⟩
  · intro l r h
    rcases h with ⟨e, he, hbad⟩
    have herr : mergeDict l r = .error () := by
      rcases List.mem_append.mp he with hel | her
      · exact mergeDict_of_local_error r (processLocal_error l [] ⟨e, hel, hbad⟩)
      · cases hpl : processLocal [] l with
        | error u => exact mergeDict_of_local_error r hpl
        | ok d1 =>
          rw [mergeDict_of_local_ok r hpl]
          exact processRemote_error r d1 ⟨e, her, hbad⟩
    unfold merge_detection_results
    rw [herr]
  · intro l
    cases hpl : processLocal [] l with
    | error u =>
      cases u
      exact mergeDict_of_local_error [] hpl
    | ok d1 =>
      exact (mergeDict_of_local_ok [] hpl).trans (processRemote_nil d1)
  · intro r
    rfl

/-- Witness for the amended claim C6 at a concrete malformed entry. -/
theorem merge_never_raises_malformed_empties_witness :
    merge_detection_results [⟨none, some 0.5⟩] [] = [] :=
  merge_never_raises_malformed_empties.1 [⟨none, some 0.5⟩] []
    ⟨⟨none, some 0.5⟩, List.mem_append.mpr (Or.inl (List.mem_singleton.mpr rfl)),
      Or.inl rfl⟩

/-- Claim C7: when template construction raises (with string ingredients
this happens exactly for the empty ingredient list, via ingredients[0] in
the eagerly built template dict), the fallback returns exactly the
hardcoded Simple Ingredient Mix recipe with its three fixed steps, time 20,
difficulty easy and servings 4. -/
theorem fallback_last_resort :
    (∀ req, req.ingredients = [] → fallback_rule_based_recipe req = simpleIngredientMix) ∧
    fallback_rule_based_recipe (mkRequest []) = simpleIngredientMix ∧
    simpleIngredientMix.title = "Simple Ingredient Mix" ∧
    simpleIngredientMix.steps = ["Combine all available ingredients",
      "Cook with basic seasonings", "Adjust taste as needed"] ∧
    simpleIngredientMix.steps.length = 3 ∧
    simpleIngredientMix.estimated_time = 20 ∧
    simpleIngredientMix.difficulty = "easy" ∧
    simpleIngredientMix.servings = 4 := by
  refine ⟨fallback_of_empty, ?_, ?_, ?_, ?_, ?_, ?_, ?_⟩ <;> with_unfolding_all decide

/-- Witness for claim C7 at the empty ingredient list. -/
theorem fallback_last_resort_witness :
    fallback_rule_based_recipe ⟨[], ["vegan"], some "indian", some "easy"⟩
      = simpleIngredientMix :=
  fallback_last_resort.1 ⟨[], ["vegan"], some "indian", some "easy"⟩ rfl

/-- Claim C8, counterexample: the merger lowercases names but does not trim
whitespace, so a local " tomato" and a remote "tomato" stay two separate
records instead of merging into one. -/
theorem merge_whitespace_not_trimmed :
    merge_detection_results [det " tomato" 0.9] [det "tomato" 0.8]
      = [⟨" tomato", 0.54, ["local_ml"]⟩, ⟨"tomato", 0.32, ["openai_vision"]⟩] ∧
    (merge_detection_results [det " tomato" 0.9] [det "tomato" 0.8]).length = 2 := by
  constructor
  · with_unfolding_all decide
  · with_unfolding_all decide

/-- Claim C8, amended: the merger keys every entry by the lowercased — but
not trimmed — name: every output name is the lowercasing of some input
name, and two entries differing only in letter case merge into one
record. -/
theorem merge_normalizes_lowercase_only :
    (∀ l r m, m ∈ merge_detection_results l r →
        ∃ e, e ∈ l ++ r ∧ ∃ nm, e.name = some nm ∧ m.name = pyLower nm) ∧
    merge_detection_results [det "ToMaTo" 0.9] [det "tomato" 0.8]
      = [⟨"tomato", 1, ["local_ml", "openai_vision"]⟩] := by
  constructor
  · intro l r m hm
    unfold merge_detection_results at hm
    cases hd : mergeDict l r with
    | error u => rw [hd] at hm; cases hm
    | ok d =>
      rw [hd] at hm
      rw [mem_sortByConfDesc, List.mem_filter] at hm
      have hname : m.name ∈ d.map (fun m => m.name) := List.mem_map.mpr ⟨m, hm.1, rfl⟩
      rcases mergeDict_ok hd with ⟨d1, hpl, hpr⟩
      rw [names_processRemote r d1 d hpr, names_processLocal l [] d1 hpl] at hname
      rcases mem_seenFold _ _ _ hname with h1 | h2
      · rcases mem_seenFold _ _ _ h1 with h0 | h1'
        · cases h0
        · rcases List.mem_map.mp h1' with ⟨e, hel, hke⟩
          rcases processLocal_ok_wf l [] d1 hpl e hel with ⟨nm, c, hnm, hc⟩
          refine ⟨e, List.mem_append.mpr (Or.inl hel), nm, hnm, ?_⟩
          rw [← hke]
          simp [rawKey, hnm]
      · rcases List.mem_map.mp h2 with ⟨e, her, hke⟩
        rcases processRemote_ok_wf r d1 d hpr e her with ⟨nm, c, hnm, hc⟩
        refine ⟨e, List.mem_append.mpr (Or.inr her), nm, hnm, ?_⟩
        rw [← hke]
        simp [rawKey, hnm]
  · with_unfolding_all decide

/-- Witness for the amended claim C8 at a concrete merged entry. -/
theorem merge_normalizes_lowercase_only_witness :
    ∃ e, e ∈ [det "Tomato" 0.9] ++ ([] : List RawDetection) ∧
      ∃ nm, e.name = some nm
        ∧ (MergedIngredient.mk "tomato" 0.54 ["local_ml"]).name = pyLower nm :=
  merge_normalizes_lowercase_only.1 [det "Tomato" 0.9] []
    ⟨"tomato", 0.54, ["local_ml"]⟩ (by with_unfolding_all decide)

/-- Claim C9: the upload route returns at most the top 20 merged
ingredients, the cap being applied after merging, deduplication and
filtering, on the confidence-sorted list. -/
theorem upload_top20_cap (batches : List (List RawDetection × List RawDetection)) :
    (upload_images_ingredients batches).length ≤ 20 ∧
    upload_images_ingredients batches
      = (sortByConfDesc (uploadUnique
          (batches.flatMap fun b => merge_detection_results b.1 b.2))).take 20 := by
  constructor
  · unfold upload_images_ingredients
    rw [List.length_take]
    exact min_le_left _ _
  · rfl

/-- Claim C10: fallback classification matches keywords by exact
whole-string membership in the ingredient list, not by substring, so
compound names such as "fried rice" and "chicken breast" fall through to
the vegetable stir fry template. -/
theorem fallback_exact_string_match :
    (∀ req, req.ingredients ≠ [] →
        (∀ g ∈ grainKeywords, g ∉ req.ingredients) →
        (∀ p ∈ proteinKeywords, p ∉ req.ingredients) →
        fallback_rule_based_recipe req = vegetableStirFryTemplate) ∧
    fallback_rule_based_recipe (mkRequest ["fried rice", "chicken breast"])
      = vegetableStirFryTemplate ∧
    (fallback_rule_based_recipe (mkRequest ["fried rice", "chicken breast"])).title
      = "Mixed Vegetable Stir Fry" := by
  refine ⟨?_, ?_, ?_⟩
  · intro req hne h1 h2
    rcases hl : req.ingredients with _ | ⟨first, rest⟩
    · exact absurd hl hne
    · exact fallback_eq_veg req first rest hl h1 h2
  · with_unfolding_all decide
  · with_unfolding_all decide

/-- Witness for claim C10 at a concrete compound-name request. -/
theorem fallback_exact_string_match_witness :
    fallback_rule_based_recipe (mkRequest ["fried rice"]) = vegetableStirFryTemplate :=
  fallback_exact_string_match.1 (mkRequest ["fried rice"]) (by decide)
    (by decide) (by decide)

end FlavourCraft
